import Mathlib

/-
  Verification development for the matter.js protocol core.

  Part 1 embeds the logging facility (packages/matter.js/src/log/Logger.ts):
  log levels, the level-threshold filter of Logger.log, the Logger.format
  setter, and the htmlEscape helper of the HTML formatter.

  Part 2 embeds the TLV schema codec and the CommandServer dispatch unit.
-/

namespace MatterSpec

/-! ### Log levels (enum Level in Logger.ts) -/

/-- Log severity levels, mirroring the TypeScript enum Level with its
numeric values DEBUG = 0, INFO = 1, WARN = 2, ERROR = 3, FATAL = 4. -/
inductive Level where
  | DEBUG
  | INFO
  | WARN
  | ERROR
  | FATAL
deriving DecidableEq, Repr

/-- Numeric value of a level, exactly the TypeScript enum values. -/
def Level.toNat : Level → Nat
  | .DEBUG => 0
  | .INFO => 1
  | .WARN => 2
  | .ERROR => 3
  | .FATAL => 4

/-! ### Format names (enum Format in Logger.ts) -/

/-- String value of Format.PLAIN. -/
def Format.PLAIN : String := "plain"

/-- String value of Format.ANSI. -/
def Format.ANSI : String := "ansi"

/-- String value of Format.HTML. -/
def Format.HTML : String := "html"

/-- The three formatter functions the Logger.format setter can install.
We model the formatters by name; their bodies are irrelevant to which one
the setter installs. -/
inductive LogFormatterKind where
  | plainLogFormatter
  | ansiLogFormatter
  | htmlLogFormatter
deriving DecidableEq, Repr

/-- Embedding of the static setter Logger.format.  The TypeScript switch
installs the formatter matching the given name and throws an Error on any
other string; a thrown Error means the assignment to Logger.logFormatter
never happens, which the Except-valued model renders as an error result
carrying no formatter. -/
def Logger.setFormat (format : String) : Except String LogFormatterKind :=
  if format = Format.PLAIN then .ok .plainLogFormatter
  else if format = Format.ANSI then .ok .ansiLogFormatter
  else if format = Format.HTML then .ok .htmlLogFormatter
  else .error ("Unsupported log format \"" ++ format ++ "\"")

/-! ### Logger static state and the private log method -/

/-- The process-wide static configuration of the Logger class:
Logger.defaultLogLevel and Logger.logLevels (a map from facility name to
level, modelled as an association list). -/
structure LoggerStatics where
  defaultLogLevel : Level
  logLevels : List (String × Level)

/-- The effective threshold for a facility name: the entry of
Logger.logLevels for that name when present, Logger.defaultLogLevel
otherwise (the ?? fallback in Logger.log). -/
def LoggerStatics.levelFor (st : LoggerStatics) (name : String) : Level :=
  match st.logLevels.lookup name with
  | some l => l
  | none => st.defaultLogLevel

/-- A Logger instance carries only its facility name. -/
structure Logger where
  name : String

/-- Embedding of the private method Logger.log.  It returns the single
call made to the static sink Logger.log(level, formatted) as a pair, or
none when the message is filtered out; in the filtered case neither the
formatter nor the sink is invoked, which the model renders by returning
none without touching the fmt argument. -/
def Logger.emit (st : LoggerStatics)
    (fmt : Level → String → List String → String)
    (lg : Logger) (level : Level) (values : List String) :
    Option (Level × String) :=
  if level.toNat < (st.levelFor lg.name).toNat then none
  else some (level, fmt level lg.name values)

/-! ### Theorems for the Logger claims -/

/-- C8: a Logger with facility name n emits at level L iff L is at least
Logger.logLevels[n] when that entry exists and at least
Logger.defaultLogLevel otherwise; when filtered, the formatter and sink
are not invoked (the result is none for every formatter); and two Logger
instances with the same name always make the same filtering decision
against the shared static state. -/
theorem Logger.emit_filtering (st : LoggerStatics)
    (fmt : Level → String → List String → String)
    (lg : Logger) (level : Level) (values : List String) :
    ((Logger.emit st fmt lg level values).isSome = true ↔
      (match st.logLevels.lookup lg.name with
       | some l => l.toNat ≤ level.toNat
       | none => st.defaultLogLevel.toNat ≤ level.toNat)) ∧
    (level.toNat < (st.levelFor lg.name).toNat →
      ∀ fmt2, Logger.emit st fmt2 lg level values = none) ∧
    (∀ lg2 : Logger, lg2.name = lg.name → ∀ fmt2,
      (Logger.emit st fmt2 lg2 level values).isSome =
        (Logger.emit st fmt2 lg level values).isSome) := by
  refine ⟨?_, ?_, ?_⟩
  · unfold Logger.emit LoggerStatics.levelFor
    cases h : st.logLevels.lookup lg.name <;> simp [h]
  · intro h fmt2
    unfold Logger.emit
    simp [h]
  · intro lg2 hname fmt2
    unfold Logger.emit LoggerStatics.levelFor
    rw [hname]

/-- Witness for C8 at concrete inputs: with the static map sending "x" to
ERROR, a WARN message on facility "x" is filtered and produces no
formatter or sink call. -/
theorem Logger.emit_filtering_witness :
    Logger.emit ⟨Level.INFO, [("x", Level.ERROR)]⟩
      (fun _ _ _ => "formatted") ⟨"x"⟩ Level.WARN [] = none :=
  (Logger.emit_filtering ⟨Level.INFO, [("x", Level.ERROR)]⟩
      (fun _ _ _ => "formatted") ⟨"x"⟩ Level.WARN []).2.1
    (by simp [LoggerStatics.levelFor, List.lookup, Level.toNat])
    (fun _ _ _ => "formatted")

/-- C9: setting Logger.format to "plain", "ansi" or "html" installs the
corresponding formatter, and setting it to any other string throws the
Unsupported-log-format Error, so no formatter is installed. -/
theorem Logger.setFormat_spec :
    Logger.setFormat Format.PLAIN = .ok .plainLogFormatter ∧
    Logger.setFormat Format.ANSI = .ok .ansiLogFormatter ∧
    Logger.setFormat Format.HTML = .ok .htmlLogFormatter ∧
    (∀ s : String, s ≠ Format.PLAIN → s ≠ Format.ANSI → s ≠ Format.HTML →
      Logger.setFormat s =
        .error ("Unsupported log format \"" ++ s ++ "\"")) := by
  refine ⟨rfl, rfl, rfl, ?_⟩
  intro s h1 h2 h3
  unfold Logger.setFormat
  rw [if_neg h1, if_neg h2, if_neg h3]

/-- Witness for C9: the unknown name "json" produces exactly the error
result and no formatter. -/
theorem Logger.setFormat_spec_witness :
    Logger.setFormat "json" =
      .error ("Unsupported log format \"" ++ "json" ++ "\"") :=
  Logger.setFormat_spec.2.2.2 "json" (by decide) (by decide) (by decide)

/-! ### htmlEscape (Logger.ts) -/

/-- Replace every occurrence of the character c by the character list r,
the character-level meaning of the JavaScript global-flag
String.prototype.replace with a single-character pattern. -/
def replaceAllChar (c : Char) (r : List Char) : List Char → List Char
  | [] => []
  | x :: xs =>
    if x = c then r ++ replaceAllChar c r xs else x :: replaceAllChar c r xs

/-- Replace only the first occurrence of the character c by r, the
character-level meaning of String.prototype.replace without the global
flag. -/
def replaceFirstChar (c : Char) (r : List Char) : List Char → List Char
  | [] => []
  | x :: xs => if x = c then r ++ xs else x :: replaceFirstChar c r xs

/-- Embedding of htmlEscape in Logger.ts, which applies in order:
replace(/\n/g, two angle brackets around br/), replace(/</g, ampersand-amp
without a semicolon), replace(/</g, ampersand-lt-semicolon), and the
non-global replace(/>/, ampersand-gt-semicolon). -/
def htmlEscape (s : String) : String :=
  String.mk (replaceFirstChar '>' "&gt;".data
    (replaceAllChar '<' "&lt;".data
      (replaceAllChar '<' "&amp".data
        (replaceAllChar '\n' "<br/>".data s.data))))

/-- Every character of the output of replaceAllChar comes from the
replacement list or from the input list. -/
theorem mem_replaceAllChar {c d : Char} {r l : List Char}
    (h : c ∈ replaceAllChar d r l) : c ∈ r ∨ c ∈ l := by
  induction l with
  | nil => simp [replaceAllChar] at h
  | cons x xs ih =>
    by_cases hx : x = d
    · rw [replaceAllChar, if_pos hx] at h
      rcases List.mem_append.1 h with h1 | h2
      · exact Or.inl h1
      · rcases ih h2 with h3 | h3
        · exact Or.inl h3
        · exact Or.inr (List.mem_cons_of_mem x h3)
    · rw [replaceAllChar, if_neg hx] at h
      rcases List.mem_cons.1 h with h1 | h2
      · exact Or.inr (h1 ▸ List.mem_cons_self x xs)
      · rcases ih h2 with h3 | h3
        · exact Or.inl h3
        · exact Or.inr (List.mem_cons_of_mem x h3)

/-- Every character of the output of replaceFirstChar comes from the
replacement list or from the input list. -/
theorem mem_replaceFirstChar {c d : Char} {r l : List Char}
    (h : c ∈ replaceFirstChar d r l) : c ∈ r ∨ c ∈ l := by
  induction l with
  | nil => simp [replaceFirstChar] at h
  | cons x xs ih =>
    by_cases hx : x = d
    · rw [replaceFirstChar, if_pos hx] at h
      rcases List.mem_append.1 h with h1 | h2
      · exact Or.inl h1
      · exact Or.inr (List.mem_cons_of_mem x h2)
    · rw [replaceFirstChar, if_neg hx] at h
      rcases List.mem_cons.1 h with h1 | h2
      · exact Or.inr (h1 ▸ List.mem_cons_self x xs)
      · rcases ih h2 with h3 | h3
        · exact Or.inl h3
        · exact Or.inr (List.mem_cons_of_mem x h3)

/-- After a global replacement of d whose replacement list does not
contain d, the character d no longer occurs. -/
theorem not_mem_replaceAllChar_self {d : Char} {r : List Char}
    (hr : d ∉ r) (l : List Char) : d ∉ replaceAllChar d r l := by
  induction l with
  | nil => simp [replaceAllChar]
  | cons x xs ih =>
    by_cases hx : x = d
    · rw [replaceAllChar, if_pos hx]
      intro h
      rcases List.mem_append.1 h with h1 | h2
      · exact hr h1
      · exact ih h2
    · rw [replaceAllChar, if_neg hx]
      intro h
      rcases List.mem_cons.1 h with h1 | h2
      · exact hx h1.symm
      · exact ih h2

/-- Occurrence count of a character c distinct from the replaced
character d after a global replacement: each copy of d contributes the
count of c in the replacement list, other characters survive. -/
theorem count_replaceAllChar {c d : Char} (hcd : c ≠ d) (r l : List Char) :
    (replaceAllChar d r l).count c = l.count c + l.count d * r.count c := by
  induction l with
  | nil => simp [replaceAllChar]
  | cons x xs ih =>
    by_cases hx : x = d
    · subst hx
      rw [replaceAllChar, if_pos rfl]
      simp only [List.count_append, List.count_cons, ih]
      simp [hcd, Ne.symm hcd]
      ring
    · rw [replaceAllChar, if_neg hx]
      simp only [List.count_cons, ih]
      by_cases hc : x = c <;> simp [List.count_cons, hc, hx, hcd]
      ring

/-- Occurrence count of the replaced character after a first-occurrence
replacement whose replacement list does not contain it: exactly one
occurrence is removed when there was one. -/
theorem count_replaceFirstChar_self {d : Char} {r : List Char}
    (hr : r.count d = 0) (l : List Char) :
    (replaceFirstChar d r l).count d =
      l.count d - (if 0 < l.count d then 1 else 0) := by
  induction l with
  | nil => simp [replaceFirstChar]
  | cons x xs ih =>
    by_cases hx : x = d
    · subst hx
      rw [replaceFirstChar, if_pos rfl]
      simp [List.count_append, List.count_cons, hr]
    · rw [replaceFirstChar, if_neg hx]
      simp only [List.count_cons, ih]
      simp [Ne.symm hx, hx]

/-- C10: the output of htmlEscape contains no left angle bracket and no
newline, and the count of right angle brackets in the output is the count
of right angle brackets plus newlines in the input (each newline
introduces one via the br/ replacement) minus exactly one when that count
is positive: only the first right angle bracket is escaped, all later
ones pass through unescaped. -/
theorem htmlEscape_spec (s : String) :
    '<' ∉ (htmlEscape s).data ∧ '\n' ∉ (htmlEscape s).data ∧
    (htmlEscape s).data.count '>' =
      s.data.count '>' + s.data.count '\n' -
        (if 0 < s.data.count '>' + s.data.count '\n' then 1 else 0) := by
  have l0 := s.data
  set l1 := replaceAllChar '\n' "<br/>".data s.data with hl1
  set l2 := replaceAllChar '<' "&amp".data l1 with hl2
  set l3 := replaceAllChar '<' "&lt;".data l2 with hl3
  have hout : (htmlEscape s).data = replaceFirstChar '>' "&gt;".data l3 := rfl
  have hlt2 : '<' ∉ l2 := not_mem_replaceAllChar_self (by decide) l1
  have hlt3 : '<' ∉ l3 := by
    intro h
    rcases mem_replaceAllChar h with h1 | h1
    · revert h1; decide
    · exact hlt2 h1
  have hnl1 : '\n' ∉ l1 := not_mem_replaceAllChar_self (by decide) s.data
  have hnl2 : '\n' ∉ l2 := by
    intro h
    rcases mem_replaceAllChar h with h1 | h1
    · revert h1; decide
    · exact hnl1 h1
  have hnl3 : '\n' ∉ l3 := by
    intro h
    rcases mem_replaceAllChar h with h1 | h1
    · revert h1; decide
    · exact hnl2 h1
  have e1 : List.count '>' "<br/>".data = 1 := rfl
  have e2 : List.count '>' "&amp".data = 0 := rfl
  have e3 : List.count '>' "&lt;".data = 0 := rfl
  have hc1 : l1.count '>' = s.data.count '>' + s.data.count '\n' := by
    rw [hl1, count_replaceAllChar (by decide), e1, Nat.mul_one]
  have hc2 : l2.count '>' = l1.count '>' := by
    rw [hl2, count_replaceAllChar (by decide), e2, Nat.mul_zero, Nat.add_zero]
  have hc3 : l3.count '>' = l2.count '>' := by
    rw [hl3, count_replaceAllChar (by decide), e3, Nat.mul_zero, Nat.add_zero]
  refine ⟨?_, ?_, ?_⟩
  · rw [hout]
    intro h
    rcases mem_replaceFirstChar h with h1 | h1
    · revert h1; decide
    · exact hlt3 h1
  · rw [hout]
    intro h
    rcases mem_replaceFirstChar h with h1 | h1
    · revert h1; decide
    · exact hnl3 h1
  · rw [hout, count_replaceFirstChar_self (by decide), hc3, hc2, hc1]

/-!
### Tag Stream and Schema Codec

Modelled from the spec: the TLV codec implementation (the TlvSchema
encode and decode pipeline and the underlying element-tagged binary
format) is not part of the provided sources, only its type declarations
are, so the definitions below follow section 4.1 (Tag Stream) and
section 4.2 (Schema Codec) of the specification: a control octet whose
low bits select the element type and width class, an optional
context-specific tag byte, a length prefix of width class 1, 2 or 4
matching the value length, inline payloads, containers closed by an
explicit end-of-container octet, minimal-width integer encoding with
widening accepted on decode, a null element for Nullable, omission for
absent Optional struct fields, and skip-not-reject for unrecognized
struct field tags.
-/

/-- Width class of an integer payload: 1, 2, 4 or 8 bytes. -/
inductive Width where
  | w1
  | w2
  | w4
  | w8
deriving DecidableEq, Repr

/-- Number of payload bytes of a width class. -/
def Width.bytes : Width → Nat
  | .w1 => 1
  | .w2 => 2
  | .w4 => 4
  | .w8 => 8

/-- Offset of a width class in the control-octet type-code table. -/
def Width.idx : Width → Nat
  | .w1 => 0
  | .w2 => 1
  | .w4 => 2
  | .w8 => 3

/-- Width class of a length prefix: 1, 2 or 4 bytes. -/
inductive LenWidth where
  | l1
  | l2
  | l4
deriving DecidableEq, Repr

/-- Number of bytes of a length-prefix width class. -/
def LenWidth.bytes : LenWidth → Nat
  | .l1 => 1
  | .l2 => 2
  | .l4 => 4

/-- Offset of a length-prefix class in the control-octet type-code
table. -/
def LenWidth.idx : LenWidth → Nat
  | .l1 => 0
  | .l2 => 1
  | .l4 => 2

/-- Schema of a value, per the data model of the spec: Boolean,
Integer(width, signed), Float, UTF8String, ByteString, List, Struct with
tagged fields, Optional and Nullable wrappers. -/
inductive TlvSchema where
  | boolean
  | integer (w : Width) (signed : Bool)
  | float
  | utf8String
  | byteString
  | list (elem : TlvSchema)
  | struct (fields : List (Nat × TlvSchema))
  | optional (inner : TlvSchema)
  | nullable (inner : TlvSchema)

/-- Typed in-memory value.  Struct values list their present fields as
tag-value pairs; an absent Optional field is simply missing from the
list.  Float values are carried as their 64-bit pattern, which is what
the codec reads and writes. -/
inductive TlvValue where
  | boolean (b : Bool)
  | intVal (i : Int)
  | floatVal (bits : Nat)
  | str (s : String)
  | bytes (bs : List Nat)
  | listVal (elems : List TlvValue)
  | structVal (fields : List (Nat × TlvValue))
  | nullVal

/-- One Tagged Element of the wire format: a type with encoding width, a
tag (none or a context-specific byte), and a payload; containers hold a
nested sequence of elements. -/
inductive TlvElement where
  | boolE (tag : Option Nat) (b : Bool)
  | intU (tag : Option Nat) (w : Width) (n : Nat)
  | intS (tag : Option Nat) (w : Width) (i : Int)
  | floatE (tag : Option Nat) (bits : Nat)
  | strE (tag : Option Nat) (cs : List Char)
  | bytesE (tag : Option Nat) (bs : List Nat)
  | nullE (tag : Option Nat)
  | structE (tag : Option Nat) (children : List TlvElement)
  | listE (tag : Option Nat) (children : List TlvElement)

/-- The tag of an element. -/
def TlvElement.tag : TlvElement → Option Nat
  | .boolE t _ => t
  | .intU t _ _ => t
  | .intS t _ _ => t
  | .floatE t _ => t
  | .strE t _ => t
  | .bytesE t _ => t
  | .nullE t => t
  | .structE t _ => t
  | .listE t _ => t

/-! ### Little-endian byte strings -/

/-- Little-endian byte representation of a natural number in exactly w
bytes. -/
def natLE : Nat → Nat → List Nat
  | 0, _ => []
  | w + 1, n => n % 256 :: natLE w (n / 256)

/-- Value of a little-endian byte string. -/
def bytesToNat : List Nat → Nat
  | [] => 0
  | b :: bs => b + 256 * bytesToNat bs

theorem natLE_length (w n : Nat) : (natLE w n).length = w := by
  induction w generalizing n with
  | zero => rfl
  | succ w ih => simp [natLE, ih]

theorem bytesToNat_natLE (w n : Nat) (h : n < 256 ^ w) :
    bytesToNat (natLE w n) = n := by
  induction w generalizing n with
  | zero =>
    simp [Nat.pow_zero] at h
    simp [natLE, bytesToNat, h]
  | succ w ih =>
    have hdiv : n / 256 < 256 ^ w := by
      rw [Nat.div_lt_iff_lt_mul (by omega : 0 < 256)]
      calc n < 256 ^ (w + 1) := h
        _ = 256 ^ w * 256 := by rw [Nat.pow_succ]
    rw [natLE, bytesToNat, ih _ hdiv]
    omega

/-- Read exactly w bytes from the front of a buffer; fails when the
buffer is shorter (truncated input). -/
def readN (w : Nat) (bs : List Nat) : Option (List Nat × List Nat) :=
  if w ≤ bs.length then some (bs.take w, bs.drop w) else none

theorem readN_append (xs rest : List Nat) :
    readN xs.length (xs ++ rest) = some (xs, rest) := by
  unfold readN
  rw [if_pos (by simp)]
  rw [List.take_left, List.drop_left]

theorem readN_append_of_length {w : Nat} (xs rest : List Nat)
    (h : xs.length = w) : readN w (xs ++ rest) = some (xs, rest) := by
  subst h
  exact readN_append xs rest

/-! ### UTF-8 payloads for the UTF8String kind -/

/-- UTF-8 encoding of a single unicode code point. -/
def utf8Char (c : Nat) : List Nat :=
  if c < 128 then [c]
  else if c < 2048 then [192 + c / 64, 128 + c % 64]
  else if c < 65536 then
    [224 + c / 4096, 128 + c / 64 % 64, 128 + c % 64]
  else
    [240 + c / 262144, 128 + c / 4096 % 64, 128 + c / 64 % 64, 128 + c % 64]

/-- UTF-8 encoding of a character sequence. -/
def utf8Bytes : List Char → List Nat
  | [] => []
  | c :: cs => utf8Char c.toNat ++ utf8Bytes cs

/-- A code point when it is a valid unicode scalar value. -/
def charOf (v : Nat) : Option Char :=
  if v.isValidChar then some (Char.ofNat v) else none

/-- Accumulate k UTF-8 continuation bytes onto an initial value; fails
on a truncated sequence or a byte outside the continuation range. -/
def readCont : Nat → Nat → List Nat → Option (Nat × List Nat)
  | 0, acc, bs => some (acc, bs)
  | k + 1, acc, b :: bs =>
    if 128 ≤ b ∧ b < 192 then readCont k (acc * 64 + (b - 128)) bs
    else none
  | _ + 1, _, [] => none

/-- Decode a UTF-8 byte string back into characters, with explicit fuel
(one unit per character); fails on a truncated sequence, a stray
continuation byte or an invalid scalar value. -/
def decodeCharsF : Nat → List Nat → Option (List Char)
  | _, [] => some []
  | 0, _ :: _ => none
  | fuel + 1, b :: bs =>
    (if b < 128 then some (b, bs)
     else if b < 192 then none
     else if b < 224 then readCont 1 (b - 192) bs
     else if b < 240 then readCont 2 (b - 224) bs
     else if b < 248 then readCont 3 (b - 240) bs
     else none).bind
      fun vr => (charOf vr.1).bind fun c =>
        (decodeCharsF fuel vr.2).map (c :: ·)

/-- Decode a UTF-8 byte string back into characters. -/
def decodeChars (bs : List Nat) : Option (List Char) :=
  decodeCharsF bs.length bs

theorem decodeCharsF_utf8Bytes (cs : List Char) :
    ∀ fuel, (utf8Bytes cs).length ≤ fuel →
      decodeCharsF fuel (utf8Bytes cs) = some cs := by
  induction cs with
  | nil => intro fuel _; cases fuel <;> rfl
  | cons c cs ih =>
    intro fuel hfuel
    have hv : c.toNat.isValidChar := c.valid
    have hofnat : charOf c.toNat = some c := by
      unfold charOf
      rw [if_pos hv, Char.ofNat_toNat]
    have hlt : c.toNat < 1114112 := by
      rcases hv with h | ⟨_, h⟩ <;> omega
    rw [utf8Bytes] at hfuel ⊢
    have hlen1 : 1 ≤ (utf8Char c.toNat).length := by
      unfold utf8Char
      repeat' split
      all_goals simp
    obtain ⟨f, rfl⟩ : ∃ f, fuel = f + 1 := by
      rcases fuel with _ | f
      · exfalso
        rw [List.length_append] at hfuel
        omega
      · exact ⟨f, rfl⟩
    have hrest : (utf8Bytes cs).length ≤ f := by
      rw [List.length_append] at hfuel
      omega
    set t := c.toNat with ht
    by_cases h1 : t < 128
    · rw [utf8Char, if_pos h1, List.cons_append, List.nil_append,
        decodeCharsF]
      rw [if_pos h1, Option.some_bind]
      dsimp only
      rw [hofnat, Option.some_bind, ih f hrest, Option.map_some']
    · by_cases h2 : t < 2048
      · rw [utf8Char, if_neg h1, if_pos h2, List.cons_append,
          List.cons_append, List.nil_append, decodeCharsF]
        rw [if_neg (by omega), if_neg (by omega), if_pos (by omega)]
        rw [readCont, if_pos (by constructor <;> omega), readCont,
          Option.some_bind]
        dsimp only
        have he : (t / 64) * 64 + (128 + t % 64 - 128) = t := by omega
        rw [show 192 + t / 64 - 192 = t / 64 by omega, he, hofnat,
          Option.some_bind, ih f hrest, Option.map_some']
      · by_cases h3 : t < 65536
        · rw [utf8Char, if_neg h1, if_neg h2, if_pos h3, List.cons_append,
            List.cons_append, List.cons_append, List.nil_append,
            decodeCharsF]
          rw [if_neg (by omega), if_neg (by omega), if_neg (by omega),
            if_pos (by omega)]
          rw [readCont, if_pos (by constructor <;> omega),
            readCont, if_pos (by constructor <;> omega), readCont,
            Option.some_bind]
          dsimp only
          have he : ((224 + t / 4096 - 224) * 64 +
              (128 + t / 64 % 64 - 128)) * 64 + (128 + t % 64 - 128) = t := by
            omega
          rw [he, hofnat, Option.some_bind, ih f hrest, Option.map_some']
        · rw [utf8Char, if_neg h1, if_neg h2, if_neg h3, List.cons_append,
            List.cons_append, List.cons_append, List.cons_append,
            List.nil_append, decodeCharsF]
          rw [if_neg (by omega), if_neg (by omega), if_neg (by omega),
            if_neg (by omega), if_pos (by omega)]
          rw [readCont, if_pos (by constructor <;> omega),
            readCont, if_pos (by constructor <;> omega),
            readCont, if_pos (by constructor <;> omega), readCont,
            Option.some_bind]
          dsimp only
          have he : (((240 + t / 262144 - 240) * 64 +
              (128 + t / 4096 % 64 - 128)) * 64 +
              (128 + t / 64 % 64 - 128)) * 64 + (128 + t % 64 - 128) = t := by
            omega
          rw [he, hofnat, Option.some_bind, ih f hrest, Option.map_some']

theorem decodeChars_utf8Bytes (cs : List Char) :
    decodeChars (utf8Bytes cs) = some cs :=
  decodeCharsF_utf8Bytes cs (utf8Bytes cs).length (Nat.le_refl _)

/-! ### Width selection and two's complement -/

/-- Smallest width class whose unsigned range holds n (fall back to the
next larger class when the magnitude does not fit, never truncate). -/
def minUWidth (n : Nat) : Width :=
  if n < 256 then .w1
  else if n < 65536 then .w2
  else if n < 4294967296 then .w4
  else .w8

/-- Smallest width class whose signed range holds i. -/
def minSWidth (i : Int) : Width :=
  if -128 ≤ i ∧ i < 128 then .w1
  else if -32768 ≤ i ∧ i < 32768 then .w2
  else if -2147483648 ≤ i ∧ i < 2147483648 then .w4
  else .w8

/-- Smallest length-prefix class holding a given byte length. -/
def minLenWidth (n : Nat) : LenWidth :=
  if n < 256 then .l1
  else if n < 65536 then .l2
  else .l4

/-- Two's complement representation of a signed integer in wb bytes. -/
def toTwos (wb : Nat) (i : Int) : Nat :=
  (i % ((2 : Int) ^ (8 * wb))).toNat

/-- Signed reading of a wb-byte two's complement value. -/
def fromTwos (wb n : Nat) : Int :=
  if n < 2 ^ (8 * wb - 1) then (n : Int)
  else (n : Int) - (2 : Int) ^ (8 * wb)

theorem fromTwos_toTwos (w : Width) (i : Int)
    (h1 : -(2 : Int) ^ (8 * w.bytes - 1) ≤ i)
    (h2 : i < (2 : Int) ^ (8 * w.bytes - 1)) :
    fromTwos w.bytes (toTwos w.bytes i) = i := by
  cases w <;>
    simp only [Width.bytes, toTwos, fromTwos] at * <;>
    norm_num at * <;>
    omega

theorem toTwos_lt (w : Width) (i : Int) :
    toTwos w.bytes i < 256 ^ w.bytes := by
  cases w <;> simp only [Width.bytes, toTwos] <;> norm_num <;> omega

/-! ### Element serialization (Tag Stream encode) -/

/-- Control octet and tag bytes of an element: the control octet holds
the type code in its low bits and a flag bit for a context tag, followed
by the tag byte when the tag is present. -/
def tagHeader (t : Option Nat) (code : Nat) : List Nat :=
  match t with
  | none => [code]
  | some tv => [128 + code, tv]

mutual

/-- Serialize one element into bytes.  Type codes: 0/1 boolean
false/true (value in the control octet, no payload), 4-7 unsigned
integer of width 1/2/4/8, 8-11 signed integer of width 1/2/4/8 (two's
complement payload), 12 float (8-byte payload), 13-15 UTF-8 string with
a length prefix of 1/2/4 bytes, 16-18 byte string likewise, 19 null, 20
struct open, 21 list open, 22 end-of-container. -/
def serE : TlvElement → List Nat
  | .boolE t b => tagHeader t (if b then 1 else 0)
  | .intU t w n => tagHeader t (4 + w.idx) ++ natLE w.bytes n
  | .intS t w i => tagHeader t (8 + w.idx) ++ natLE w.bytes (toTwos w.bytes i)
  | .floatE t bits => tagHeader t 12 ++ natLE 8 bits
  | .strE t cs =>
    tagHeader t (13 + (minLenWidth (utf8Bytes cs).length).idx) ++
      natLE (minLenWidth (utf8Bytes cs).length).bytes (utf8Bytes cs).length ++
      utf8Bytes cs
  | .bytesE t bs =>
    tagHeader t (16 + (minLenWidth bs.length).idx) ++
      natLE (minLenWidth bs.length).bytes bs.length ++ bs
  | .nullE t => tagHeader t 19
  | .structE t cs => tagHeader t 20 ++ serEs cs ++ [22]
  | .listE t cs => tagHeader t 21 ++ serEs cs ++ [22]

/-- Serialize a list of elements into the concatenation of their
bytes. -/
def serEs : List TlvElement → List Nat
  | [] => []
  | e :: es => serE e ++ serEs es

end

/-! ### Element well-formedness -/

/-- A context tag fits in its single byte. -/
def wfTag : Option Nat → Bool
  | none => true
  | some t => decide (t < 256)

mutual

/-- Payloads fit their declared width classes: how the Schema Codec
always produces elements (encoders never silently truncate). -/
def wfE : TlvElement → Bool
  | .boolE t _ => wfTag t
  | .intU t w n => wfTag t && decide (n < 256 ^ w.bytes)
  | .intS t w i =>
    wfTag t && decide (-(2 : Int) ^ (8 * w.bytes - 1) ≤ i) &&
      decide (i < (2 : Int) ^ (8 * w.bytes - 1))
  | .floatE t bits => wfTag t && decide (bits < 256 ^ 8)
  | .strE t cs => wfTag t && decide ((utf8Bytes cs).length < 4294967296)
  | .bytesE t bs => wfTag t && decide (bs.length < 4294967296)
  | .nullE t => wfTag t
  | .structE t cs => wfTag t && wfEs cs
  | .listE t cs => wfTag t && wfEs cs

/-- Well-formedness of every element of a list. -/
def wfEs : List TlvElement → Bool
  | [] => true
  | e :: es => wfE e && wfEs es

end

/-! ### Element parsing (Tag Stream decode) -/

/-- Read the control octet and, when its flag bit is set, the context
tag byte; fails on an empty buffer, an unrecognized control octet, or a
missing tag byte. -/
def readHeader : List Nat → Option (Nat × Option Nat × List Nat)
  | [] => none
  | c :: rest =>
    if c < 128 then
      if c ≤ 22 then some (c, none, rest) else none
    else if c ≤ 150 then
      match rest with
      | tv :: rest1 => some (c - 128, some tv, rest1)
      | [] => none
    else none

/-- Parse an unsigned integer payload of the width selected by the
control octet. -/
def parseIntU (t : Option Nat) (w : Width) (r : List Nat) :
    Option (TlvElement × List Nat) :=
  match readN w.bytes r with
  | some (pl, r1) => some (.intU t w (bytesToNat pl), r1)
  | none => none

/-- Parse a signed (two's complement) integer payload. -/
def parseIntS (t : Option Nat) (w : Width) (r : List Nat) :
    Option (TlvElement × List Nat) :=
  match readN w.bytes r with
  | some (pl, r1) => some (.intS t w (fromTwos w.bytes (bytesToNat pl)), r1)
  | none => none

/-- Parse a length prefix of the width selected by the control octet. -/
def parseLen (lw : LenWidth) (r : List Nat) : Option (Nat × List Nat) :=
  match readN lw.bytes r with
  | some (lb, r1) => some (bytesToNat lb, r1)
  | none => none

/-- Parse a length-prefixed UTF-8 string payload; a length prefix
exceeding the remaining buffer fails, as does a malformed character
sequence. -/
def parseStrE (t : Option Nat) (lw : LenWidth) (r : List Nat) :
    Option (TlvElement × List Nat) :=
  match parseLen lw r with
  | some (len, r1) =>
    match readN len r1 with
    | some (pl, r2) =>
      match decodeChars pl with
      | some cs => some (.strE t cs, r2)
      | none => none
    | none => none
  | none => none

/-- Parse a length-prefixed byte string payload. -/
def parseBytesE (t : Option Nat) (lw : LenWidth) (r : List Nat) :
    Option (TlvElement × List Nat) :=
  match parseLen lw r with
  | some (len, r1) =>
    match readN len r1 with
    | some (pl, r2) => some (.bytesE t pl, r2)
    | none => none
  | none => none

mutual

/-- Parse one element from the front of a buffer: read the header and
dispatch on the type code; containers recurse into a child sequence.
The fuel argument is the recursion guard the spec requires against
malformed arbitrarily nested input; any fuel beyond the buffer length
is sufficient. -/
def parseE : Nat → List Nat → Option (TlvElement × List Nat)
  | 0, _ => none
  | fuel + 1, bs =>
    match readHeader bs with
    | none => none
    | some (code, t, r) =>
      match code with
      | 0 => some (.boolE t false, r)
      | 1 => some (.boolE t true, r)
      | 4 => parseIntU t .w1 r
      | 5 => parseIntU t .w2 r
      | 6 => parseIntU t .w4 r
      | 7 => parseIntU t .w8 r
      | 8 => parseIntS t .w1 r
      | 9 => parseIntS t .w2 r
      | 10 => parseIntS t .w4 r
      | 11 => parseIntS t .w8 r
      | 12 =>
        match readN 8 r with
        | some (pl, r1) => some (.floatE t (bytesToNat pl), r1)
        | none => none
      | 13 => parseStrE t .l1 r
      | 14 => parseStrE t .l2 r
      | 15 => parseStrE t .l4 r
      | 16 => parseBytesE t .l1 r
      | 17 => parseBytesE t .l2 r
      | 18 => parseBytesE t .l4 r
      | 19 => some (.nullE t, r)
      | 20 =>
        match parseEs fuel r with
        | some (cs, r1) => some (.structE t cs, r1)
        | none => none
      | 21 =>
        match parseEs fuel r with
        | some (cs, r1) => some (.listE t cs, r1)
        | none => none
      | _ => none

/-- Parse the children of a container up to the end-of-container octet;
a container without its terminator is an error. -/
def parseEs : Nat → List Nat → Option (List TlvElement × List Nat)
  | 0, _ => none
  | fuel + 1, bs =>
    match bs with
    | [] => none
    | b :: r =>
      if b = 22 then some ([], r)
      else
        match parseE fuel (b :: r) with
        | some (e, r1) =>
          match parseEs fuel r1 with
          | some (es, r2) => some (e :: es, r2)
          | none => none
        | none => none

end

theorem readHeader_tagHeader (t : Option Nat) (code : Nat)
    (rest : List Nat) (hc : code ≤ 22) (ht : wfTag t = true) :
    readHeader (tagHeader t code ++ rest) = some (code, t, rest) := by
  cases t with
  | none =>
    show readHeader (code :: rest) = _
    rw [readHeader.eq_def]
    dsimp only
    rw [if_pos (by omega), if_pos hc]
  | some tv =>
    show readHeader ((128 + code) :: tv :: rest) = _
    rw [readHeader.eq_def]
    dsimp only
    rw [if_neg (by omega), if_pos (by omega)]
    norm_num

theorem tagHeader_cons (t : Option Nat) (k : Nat) (rest : List Nat)
    (hk : k ≤ 21) : ∃ c cs, tagHeader t k ++ rest = c :: cs ∧ c ≠ 22 := by
  cases t with
  | none => exact ⟨k, rest, rfl, by omega⟩
  | some tv => exact ⟨128 + k, tv :: rest, rfl, by omega⟩

theorem tagHeader_length_pos (t : Option Nat) (k : Nat) :
    1 ≤ (tagHeader t k).length := by
  cases t <;> simp [tagHeader]

theorem serE_cons (e : TlvElement) :
    ∃ c cs, serE e = c :: cs ∧ c ≠ 22 := by
  have hw : ∀ w : Width, w.idx ≤ 3 := fun w => by cases w <;> decide
  have hl : ∀ l : LenWidth, l.idx ≤ 2 := fun l => by cases l <;> decide
  cases e with
  | boolE t b =>
    rw [show serE (.boolE t b) = tagHeader t (if b then 1 else 0) ++ []
      from by simp [serE]]
    exact tagHeader_cons t _ [] (by cases b <;> simp)
  | intU t w n =>
    rw [show serE (.intU t w n) = tagHeader t (4 + w.idx) ++ natLE w.bytes n
      from by simp [serE]]
    exact tagHeader_cons t _ _ (by have := hw w; omega)
  | intS t w i =>
    rw [show serE (.intS t w i) =
        tagHeader t (8 + w.idx) ++ natLE w.bytes (toTwos w.bytes i)
      from by simp [serE]]
    exact tagHeader_cons t _ _ (by have := hw w; omega)
  | floatE t bits =>
    rw [show serE (.floatE t bits) = tagHeader t 12 ++ natLE 8 bits
      from by simp [serE]]
    exact tagHeader_cons t _ _ (by omega)
  | strE t cs =>
    rw [show serE (.strE t cs) =
        tagHeader t (13 + (minLenWidth (utf8Bytes cs).length).idx) ++
          (natLE (minLenWidth (utf8Bytes cs).length).bytes
            (utf8Bytes cs).length ++ utf8Bytes cs)
      from by simp [serE, List.append_assoc]]
    exact tagHeader_cons t _ _ (by have := hl (minLenWidth (utf8Bytes cs).length); omega)
  | bytesE t bs =>
    rw [show serE (.bytesE t bs) =
        tagHeader t (16 + (minLenWidth bs.length).idx) ++
          (natLE (minLenWidth bs.length).bytes bs.length ++ bs)
      from by simp [serE, List.append_assoc]]
    exact tagHeader_cons t _ _ (by have := hl (minLenWidth bs.length); omega)
  | nullE t =>
    rw [show serE (.nullE t) = tagHeader t 19 ++ [] from by simp [serE]]
    exact tagHeader_cons t _ [] (by omega)
  | structE t cs =>
    rw [show serE (.structE t cs) = tagHeader t 20 ++ (serEs cs ++ [22])
      from by simp [serE, List.append_assoc]]
    exact tagHeader_cons t _ _ (by omega)
  | listE t cs =>
    rw [show serE (.listE t cs) = tagHeader t 21 ++ (serEs cs ++ [22])
      from by simp [serE, List.append_assoc]]
    exact tagHeader_cons t _ _ (by omega)

theorem serE_length_pos (e : TlvElement) : 1 ≤ (serE e).length := by
  obtain ⟨c, cs, h, _⟩ := serE_cons e
  rw [h]
  simp

theorem minLenWidth_fits (n : Nat) (h : n < 4294967296) :
    n < 256 ^ (minLenWidth n).bytes := by
  unfold minLenWidth
  repeat' split
  all_goals simp [LenWidth.bytes]
  all_goals omega

theorem parseIntU_natLE (t : Option Nat) (w : Width) (n : Nat)
    (rest : List Nat) (hn : n < 256 ^ w.bytes) :
    parseIntU t w (natLE w.bytes n ++ rest) = some (.intU t w n, rest) := by
  rw [parseIntU, readN_append_of_length _ _ (natLE_length _ _)]
  dsimp only
  rw [bytesToNat_natLE _ _ hn]

theorem parseIntS_natLE (t : Option Nat) (w : Width) (i : Int)
    (rest : List Nat)
    (h1 : -(2 : Int) ^ (8 * w.bytes - 1) ≤ i)
    (h2 : i < (2 : Int) ^ (8 * w.bytes - 1)) :
    parseIntS t w (natLE w.bytes (toTwos w.bytes i) ++ rest) =
      some (.intS t w i, rest) := by
  rw [parseIntS, readN_append_of_length _ _ (natLE_length _ _)]
  dsimp only
  rw [bytesToNat_natLE _ _ (toTwos_lt w i), fromTwos_toTwos w i h1 h2]

theorem parseStrE_ser (t : Option Nat) (cs : List Char) (rest : List Nat)
    (hlen : (utf8Bytes cs).length < 4294967296) :
    parseStrE t (minLenWidth (utf8Bytes cs).length)
      (natLE (minLenWidth (utf8Bytes cs).length).bytes
          (utf8Bytes cs).length ++
        (utf8Bytes cs ++ rest)) = some (.strE t cs, rest) := by
  rw [parseStrE, parseLen, readN_append_of_length _ _ (natLE_length _ _)]
  dsimp only
  rw [bytesToNat_natLE _ _ (minLenWidth_fits _ hlen)]
  rw [readN_append]
  dsimp only
  rw [decodeChars_utf8Bytes]

theorem parseBytesE_ser (t : Option Nat) (bs : List Nat) (rest : List Nat)
    (hlen : bs.length < 4294967296) :
    parseBytesE t (minLenWidth bs.length)
      (natLE (minLenWidth bs.length).bytes bs.length ++ (bs ++ rest)) =
      some (.bytesE t bs, rest) := by
  rw [parseBytesE, parseLen, readN_append_of_length _ _ (natLE_length _ _)]
  dsimp only
  rw [bytesToNat_natLE _ _ (minLenWidth_fits _ hlen)]
  rw [readN_append]

/-- Round trip of the Tag Stream layer, stated simultaneously for one
element and for a child sequence and proved by strong induction on
size: parsing the serialization of a well-formed element with any
sufficient fuel returns the element and the remaining bytes. -/
theorem parse_ser_strong : ∀ N : Nat,
    (∀ e : TlvElement, sizeOf e ≤ N → wfE e = true →
      ∀ rest fuel, (serE e).length < fuel →
        parseE fuel (serE e ++ rest) = some (e, rest)) ∧
    (∀ es : List TlvElement, sizeOf es ≤ N → wfEs es = true →
      ∀ rest fuel, (serEs es).length + 1 < fuel →
        parseEs fuel (serEs es ++ 22 :: rest) = some (es, rest)) := by
  intro N
  induction N with
  | zero =>
    constructor
    · intro e he
      exfalso
      cases e <;> simp at he
    · intro es hes
      exfalso
      cases es <;> simp at hes
  | succ N ih =>
    obtain ⟨ihE, ihEs⟩ := ih
    constructor
    · intro e he hwf rest fuel hfuel
      obtain ⟨f, rfl⟩ : ∃ f, fuel = f + 1 := by
        cases fuel
        · exact absurd hfuel (by omega)
        · exact ⟨_, rfl⟩
      cases e with
      | boolE t b =>
        have htag : wfTag t = true := by simpa [wfE] using hwf
        cases b
        · rw [show serE (.boolE t false) = tagHeader t 0 from by simp [serE],
            parseE, readHeader_tagHeader t 0 rest (by omega) htag]
        · rw [show serE (.boolE t true) = tagHeader t 1 from by simp [serE],
            parseE, readHeader_tagHeader t 1 rest (by omega) htag]
      | intU t w n =>
        rw [wfE] at hwf
        simp only [Bool.and_eq_true, decide_eq_true_eq] at hwf
        obtain ⟨htag, hn⟩ := hwf
        cases w
        · rw [show serE (.intU t .w1 n) = tagHeader t 4 ++ natLE 1 n
            from by simp [serE, Width.idx, Width.bytes], List.append_assoc,
            parseE, readHeader_tagHeader t 4 _ (by omega) htag]
          dsimp only
          exact parseIntU_natLE t .w1 n rest hn
        · rw [show serE (.intU t .w2 n) = tagHeader t 5 ++ natLE 2 n
            from by simp [serE, Width.idx, Width.bytes], List.append_assoc,
            parseE, readHeader_tagHeader t 5 _ (by omega) htag]
          dsimp only
          exact parseIntU_natLE t .w2 n rest hn
        · rw [show serE (.intU t .w4 n) = tagHeader t 6 ++ natLE 4 n
            from by simp [serE, Width.idx, Width.bytes], List.append_assoc,
            parseE, readHeader_tagHeader t 6 _ (by omega) htag]
          dsimp only
          exact parseIntU_natLE t .w4 n rest hn
        · rw [show serE (.intU t .w8 n) = tagHeader t 7 ++ natLE 8 n
            from by simp [serE, Width.idx, Width.bytes], List.append_assoc,
            parseE, readHeader_tagHeader t 7 _ (by omega) htag]
          dsimp only
          exact parseIntU_natLE t .w8 n rest hn
      | intS t w i =>
        rw [wfE] at hwf
        simp only [Bool.and_eq_true, decide_eq_true_eq] at hwf
        obtain ⟨⟨htag, h1⟩, h2⟩ := hwf
        cases w
        · rw [show serE (.intS t .w1 i) = tagHeader t 8 ++ natLE 1 (toTwos 1 i)
            from by simp [serE, Width.idx, Width.bytes], List.append_assoc,
            parseE, readHeader_tagHeader t 8 _ (by omega) htag]
          dsimp only
          exact parseIntS_natLE t .w1 i rest h1 h2
        · rw [show serE (.intS t .w2 i) = tagHeader t 9 ++ natLE 2 (toTwos 2 i)
            from by simp [serE, Width.idx, Width.bytes], List.append_assoc,
            parseE, readHeader_tagHeader t 9 _ (by omega) htag]
          dsimp only
          exact parseIntS_natLE t .w2 i rest h1 h2
        · rw [show serE (.intS t .w4 i) = tagHeader t 10 ++ natLE 4 (toTwos 4 i)
            from by simp [serE, Width.idx, Width.bytes], List.append_assoc,
            parseE, readHeader_tagHeader t 10 _ (by omega) htag]
          dsimp only
          exact parseIntS_natLE t .w4 i rest h1 h2
        · rw [show serE (.intS t .w8 i) = tagHeader t 11 ++ natLE 8 (toTwos 8 i)
            from by simp [serE, Width.idx, Width.bytes], List.append_assoc,
            parseE, readHeader_tagHeader t 11 _ (by omega) htag]
          dsimp only
          exact parseIntS_natLE t .w8 i rest h1 h2
      | floatE t bits =>
        rw [wfE] at hwf
        simp only [Bool.and_eq_true, decide_eq_true_eq] at hwf
        obtain ⟨htag, hb⟩ := hwf
        rw [show serE (.floatE t bits) = tagHeader t 12 ++ natLE 8 bits
          from by simp [serE], List.append_assoc,
          parseE, readHeader_tagHeader t 12 _ (by omega) htag]
        dsimp only
        rw [readN_append_of_length _ _ (natLE_length _ _)]
        dsimp only
        rw [bytesToNat_natLE _ _ hb]
      | strE t cs =>
        rw [wfE] at hwf
        simp only [Bool.and_eq_true, decide_eq_true_eq] at hwf
        obtain ⟨htag, hlen⟩ := hwf
        have hser := parseStrE_ser t cs rest hlen
        cases hlw : minLenWidth (utf8Bytes cs).length with
        | l1 =>
          rw [hlw] at hser
          rw [show serE (.strE t cs) = tagHeader t 13 ++
              (natLE 1 (utf8Bytes cs).length ++ utf8Bytes cs)
            from by simp [serE, hlw, LenWidth.idx, LenWidth.bytes,
              List.append_assoc], List.append_assoc,
            parseE, readHeader_tagHeader t 13 _ (by omega) htag]
          dsimp only
          rw [List.append_assoc]
          exact hser
        | l2 =>
          rw [hlw] at hser
          rw [show serE (.strE t cs) = tagHeader t 14 ++
              (natLE 2 (utf8Bytes cs).length ++ utf8Bytes cs)
            from by simp [serE, hlw, LenWidth.idx, LenWidth.bytes,
              List.append_assoc], List.append_assoc,
            parseE, readHeader_tagHeader t 14 _ (by omega) htag]
          dsimp only
          rw [List.append_assoc]
          exact hser
        | l4 =>
          rw [hlw] at hser
          rw [show serE (.strE t cs) = tagHeader t 15 ++
              (natLE 4 (utf8Bytes cs).length ++ utf8Bytes cs)
            from by simp [serE, hlw, LenWidth.idx, LenWidth.bytes,
              List.append_assoc], List.append_assoc,
            parseE, readHeader_tagHeader t 15 _ (by omega) htag]
          dsimp only
          rw [List.append_assoc]
          exact hser
      | bytesE t bs =>
        rw [wfE] at hwf
        simp only [Bool.and_eq_true, decide_eq_true_eq] at hwf
        obtain ⟨htag, hlen⟩ := hwf
        have hser := parseBytesE_ser t bs rest hlen
        cases hlw : minLenWidth bs.length with
        | l1 =>
          rw [hlw] at hser
          rw [show serE (.bytesE t bs) = tagHeader t 16 ++
              (natLE 1 bs.length ++ bs)
            from by simp [serE, hlw, LenWidth.idx, LenWidth.bytes,
              List.append_assoc], List.append_assoc,
            parseE, readHeader_tagHeader t 16 _ (by omega) htag]
          dsimp only
          rw [List.append_assoc]
          exact hser
        | l2 =>
          rw [hlw] at hser
          rw [show serE (.bytesE t bs) = tagHeader t 17 ++
              (natLE 2 bs.length ++ bs)
            from by simp [serE, hlw, LenWidth.idx, LenWidth.bytes,
              List.append_assoc], List.append_assoc,
            parseE, readHeader_tagHeader t 17 _ (by omega) htag]
          dsimp only
          rw [List.append_assoc]
          exact hser
        | l4 =>
          rw [hlw] at hser
          rw [show serE (.bytesE t bs) = tagHeader t 18 ++
              (natLE 4 bs.length ++ bs)
            from by simp [serE, hlw, LenWidth.idx, LenWidth.bytes,
              List.append_assoc], List.append_assoc,
            parseE, readHeader_tagHeader t 18 _ (by omega) htag]
          dsimp only
          rw [List.append_assoc]
          exact hser
      | nullE t =>
        have htag : wfTag t = true := by simpa [wfE] using hwf
        rw [show serE (.nullE t) = tagHeader t 19 from by simp [serE],
          parseE, readHeader_tagHeader t 19 rest (by omega) htag]
      | structE t cs =>
        rw [wfE] at hwf
        simp only [Bool.and_eq_true] at hwf
        obtain ⟨htag, hcs⟩ := hwf
        have hsize : sizeOf cs ≤ N := by
          simp at he
          omega
        have hlen : (serE (.structE t cs)).length =
            (tagHeader t 20).length + ((serEs cs).length + 1) := by
          simp [serE]
        have hf : (serEs cs).length + 1 < f := by
          have := tagHeader_length_pos t 20
          omega
        rw [show serE (.structE t cs) ++ rest =
            tagHeader t 20 ++ (serEs cs ++ 22 :: rest)
          from by simp [serE, List.append_assoc],
          parseE, readHeader_tagHeader t 20 _ (by omega) htag]
        dsimp only
        rw [ihEs cs hsize hcs rest f hf]
      | listE t cs =>
        rw [wfE] at hwf
        simp only [Bool.and_eq_true] at hwf
        obtain ⟨htag, hcs⟩ := hwf
        have hsize : sizeOf cs ≤ N := by
          simp at he
          omega
        have hlen : (serE (.listE t cs)).length =
            (tagHeader t 21).length + ((serEs cs).length + 1) := by
          simp [serE]
        have hf : (serEs cs).length + 1 < f := by
          have := tagHeader_length_pos t 21
          omega
        rw [show serE (.listE t cs) ++ rest =
            tagHeader t 21 ++ (serEs cs ++ 22 :: rest)
          from by simp [serE, List.append_assoc],
          parseE, readHeader_tagHeader t 21 _ (by omega) htag]
        dsimp only
        rw [ihEs cs hsize hcs rest f hf]
    · intro es hes hwf rest fuel hfuel
      obtain ⟨f, rfl⟩ : ∃ f, fuel = f + 1 := by
        cases fuel
        · exact absurd hfuel (by omega)
        · exact ⟨_, rfl⟩
      cases es with
      | nil =>
        rw [show serEs ([] : List TlvElement) ++ 22 :: rest = 22 :: rest
          from by simp [serEs], parseEs]
        rw [if_pos rfl]
      | cons e es =>
        rw [wfEs] at hwf
        simp only [Bool.and_eq_true] at hwf
        obtain ⟨hwe, hwes⟩ := hwf
        have hsizeE : sizeOf e ≤ N := by
          simp at hes
          omega
        have hsizeEs : sizeOf es ≤ N := by
          simp at hes
          omega
        have hlen : (serEs (e :: es)).length =
            (serE e).length + (serEs es).length := by
          simp [serEs]
        have hposE := serE_length_pos e
        obtain ⟨c, cs, hc, hne⟩ := serE_cons e
        rw [show serEs (e :: es) ++ 22 :: rest =
            c :: (cs ++ (serEs es ++ 22 :: rest))
          from by rw [serEs, hc]; simp, parseEs]
        rw [if_neg hne]
        rw [show c :: (cs ++ (serEs es ++ 22 :: rest)) =
            serE e ++ (serEs es ++ 22 :: rest) from by rw [hc]; simp]
        rw [ihE e hsizeE hwe _ f (by omega)]
        dsimp only
        rw [ihEs es hsizeEs hwes rest f (by omega)]

/-! ### Schema Codec: conformance, encoding and decoding of values -/

/-- Whether a schema is an Optional wrapper (whose absence in a struct
is allowed). -/
def isOpt : TlvSchema → Bool
  | .optional _ => true
  | _ => false

/-- Every non-Optional declared field occurs among the value fields. -/
def requiredPresent (fields : List (Nat × TlvSchema))
    (fvs : List (Nat × TlvValue)) : Bool :=
  fields.all fun p => isOpt p.2 || fvs.any fun q => q.1 == p.1

/-- The keys of an association list are pairwise distinct. -/
def keysDistinct {a : Type} : List (Nat × a) → Bool
  | [] => true
  | (t, _) :: r => (r.all fun q => !(q.1 == t)) && keysDistinct r

mutual

/-- Schema well-formedness per the data model: a Struct schema has
unique positive field tags, small enough for the context tag byte, and
well-formed field schemas. -/
def wfSchema : TlvSchema → Bool
  | .boolean => true
  | .integer _ _ => true
  | .float => true
  | .utf8String => true
  | .byteString => true
  | .list el => wfSchema el
  | .struct fields =>
    keysDistinct fields &&
      (fields.all fun p => decide (0 < p.1) && decide (p.1 < 256)) &&
      wfSchemaFields fields
  | .optional inner => wfSchema inner
  | .nullable inner => wfSchema inner

/-- Well-formedness of every field schema of a struct. -/
def wfSchemaFields : List (Nat × TlvSchema) → Bool
  | [] => true
  | (_, s) :: r => wfSchema s && wfSchemaFields r

end

mutual

/-- A value conforms to a schema: booleans to Boolean, integers inside
the declared signed or unsigned range, floats inside 64 bits, strings
and byte strings whose payload length fits the largest length-prefix
class (encoders must never silently truncate), lists elementwise,
structs with distinct present-field tags all declared, each field value
conforming, and every non-Optional field present; an Optional wrapper
accepts a present conforming value (absence only arises inside a
struct), and a Nullable wrapper accepts null or a conforming value. -/
def conforms : TlvSchema → TlvValue → Bool
  | .boolean, .boolean _ => true
  | .integer w false, .intVal i =>
    decide (0 ≤ i) && decide (i < (2 : Int) ^ (8 * w.bytes))
  | .integer w true, .intVal i =>
    decide (-(2 : Int) ^ (8 * w.bytes - 1) ≤ i) &&
      decide (i < (2 : Int) ^ (8 * w.bytes - 1))
  | .float, .floatVal bits => decide (bits < 256 ^ 8)
  | .utf8String, .str s => decide ((utf8Bytes s.data).length < 4294967296)
  | .byteString, .bytes bs =>
    decide (bs.length < 4294967296) && bs.all fun b => decide (b < 256)
  | .list el, .listVal vs => conformsItems el vs
  | .struct fields, .structVal fvs =>
    keysDistinct fvs && conformsFields fields fvs &&
      requiredPresent fields fvs
  | .optional inner, v => conforms inner v
  | .nullable _, .nullVal => true
  | .nullable inner, v => conforms inner v
  | _, _ => false

/-- Each list element conforms to the element schema. -/
def conformsItems : TlvSchema → List TlvValue → Bool
  | _, [] => true
  | el, v :: vs => conforms el v && conformsItems el vs

/-- Each present struct field is declared and its value conforms to the
declared field schema. -/
def conformsFields : List (Nat × TlvSchema) → List (Nat × TlvValue) → Bool
  | _, [] => true
  | fields, (t, v) :: fvs =>
    (match fields.lookup t with
     | some fs => conforms fs v
     | none => false) && conformsFields fields fvs

end

mutual

/-- Encode a value against a schema into one Tagged Element carrying
the given tag.  Integers use the smallest width class that holds the
value; an Optional wrapper encodes its present value transparently; a
Nullable wrapper encodes null as the dedicated null element.  On a
non-conforming value the result is unspecified (a null element). -/
def encodeE : Option Nat → TlvSchema → TlvValue → TlvElement
  | tag, .boolean, .boolean b => .boolE tag b
  | tag, .integer _ false, .intVal i => .intU tag (minUWidth i.toNat) i.toNat
  | tag, .integer _ true, .intVal i => .intS tag (minSWidth i) i
  | tag, .float, .floatVal bits => .floatE tag bits
  | tag, .utf8String, .str s => .strE tag s.data
  | tag, .byteString, .bytes bs => .bytesE tag bs
  | tag, .list el, .listVal vs => .listE tag (encodeItems el vs)
  | tag, .struct fields, .structVal fvs =>
    .structE tag (encodeFieldsE fields fvs)
  | tag, .optional inner, v => encodeE tag inner v
  | tag, .nullable _, .nullVal => .nullE tag
  | tag, .nullable inner, v => encodeE tag inner v
  | tag, _, _ => .nullE tag

/-- Encode each list element, untagged. -/
def encodeItems : TlvSchema → List TlvValue → List TlvElement
  | _, [] => []
  | el, v :: vs => encodeE none el v :: encodeItems el vs

/-- Encode each present struct field, tagged with its field tag and
against its declared schema. -/
def encodeFieldsE : List (Nat × TlvSchema) → List (Nat × TlvValue) →
    List TlvElement
  | _, [] => []
  | fields, (t, v) :: fvs =>
    encodeE (some t) ((fields.lookup t).getD .boolean) v ::
      encodeFieldsE fields fvs

end

mutual

/-- Decode one Tagged Element against a schema.  Wire-width widening is
accepted for integers provided the value fits the declared semantic
range; a wire type incompatible with the declared kind, an out-of-range
integer, an untagged struct child, or a missing required field is a
SchemaMismatch (none); unrecognized struct field tags are skipped, not
rejected. -/
def decodeE : TlvSchema → TlvElement → Option TlvValue
  | .boolean, .boolE _ b => some (.boolean b)
  | .integer w false, .intU _ _ n =>
    if n < 256 ^ w.bytes then some (.intVal (n : Int)) else none
  | .integer w true, .intS _ _ i =>
    if -(2 : Int) ^ (8 * w.bytes - 1) ≤ i ∧ i < (2 : Int) ^ (8 * w.bytes - 1)
    then some (.intVal i) else none
  | .float, .floatE _ bits => some (.floatVal bits)
  | .utf8String, .strE _ cs => some (.str (String.mk cs))
  | .byteString, .bytesE _ bs => some (.bytes bs)
  | .list el, .listE _ children =>
    (decodeItemsE el children).map .listVal
  | .struct fields, .structE _ children =>
    match decodeFieldsE fields children with
    | some fvs =>
      if requiredPresent fields fvs then some (.structVal fvs) else none
    | none => none
  | .optional inner, e => decodeE inner e
  | .nullable _, .nullE _ => some .nullVal
  | .nullable inner, e => decodeE inner e
  | _, _ => none

/-- Decode each untagged list child against the element schema. -/
def decodeItemsE : TlvSchema → List TlvElement → Option (List TlvValue)
  | _, [] => some []
  | el, c :: cs =>
    match c.tag with
    | some _ => none
    | none =>
      match decodeE el c with
      | some v => (decodeItemsE el cs).map (v :: .)
      | none => none

/-- Decode the children of a struct in wire order: look each child tag
up among the declared fields, decode known fields against their
schemas, and skip unknown tags entirely (forward compatibility). -/
def decodeFieldsE : List (Nat × TlvSchema) → List TlvElement →
    Option (List (Nat × TlvValue))
  | _, [] => some []
  | fields, c :: cs =>
    match c.tag with
    | none => none
    | some t =>
      match fields.lookup t with
      | none => decodeFieldsE fields cs
      | some fs =>
        match decodeE fs c with
        | some v => (decodeFieldsE fields cs).map ((t, v) :: .)
        | none => none

end

/-! ### Properties of the Schema Codec encoder -/

theorem encodeE_tag_aux :
    ∀ N : Nat, ∀ S : TlvSchema, sizeOf S ≤ N →
      ∀ tag v, (encodeE tag S v).tag = tag := by
  intro N
  induction N with
  | zero => intro S hS; exfalso; cases S <;> simp at hS
  | succ N ih =>
    intro S hS tag v
    cases S with
    | boolean => cases v <;> simp [encodeE, TlvElement.tag]
    | integer w signed =>
      cases signed <;> cases v <;> simp [encodeE, TlvElement.tag]
    | float => cases v <;> simp [encodeE, TlvElement.tag]
    | utf8String => cases v <;> simp [encodeE, TlvElement.tag]
    | byteString => cases v <;> simp [encodeE, TlvElement.tag]
    | list el => cases v <;> simp [encodeE, TlvElement.tag]
    | struct fields => cases v <;> simp [encodeE, TlvElement.tag]
    | optional inner =>
      have hi : sizeOf inner ≤ N := by simp at hS; omega
      rw [show encodeE tag (.optional inner) v = encodeE tag inner v
        from by cases v <;> simp [encodeE]]
      exact ih inner hi tag v
    | nullable inner =>
      have hi : sizeOf inner ≤ N := by simp at hS; omega
      cases v with
      | nullVal => simp [encodeE, TlvElement.tag]
      | boolean b => rw [show encodeE tag (.nullable inner) (.boolean b) =
          encodeE tag inner (.boolean b) from by simp [encodeE]]
                     exact ih inner hi tag _
      | intVal i => rw [show encodeE tag (.nullable inner) (.intVal i) =
          encodeE tag inner (.intVal i) from by simp [encodeE]]
                    exact ih inner hi tag _
      | floatVal bits => rw [show encodeE tag (.nullable inner) (.floatVal bits) =
          encodeE tag inner (.floatVal bits) from by simp [encodeE]]
                         exact ih inner hi tag _
      | str st => rw [show encodeE tag (.nullable inner) (.str st) =
          encodeE tag inner (.str st) from by simp [encodeE]]
                  exact ih inner hi tag _
      | bytes bs => rw [show encodeE tag (.nullable inner) (.bytes bs) =
          encodeE tag inner (.bytes bs) from by simp [encodeE]]
                    exact ih inner hi tag _
      | listVal vs => rw [show encodeE tag (.nullable inner) (.listVal vs) =
          encodeE tag inner (.listVal vs) from by simp [encodeE]]
                      exact ih inner hi tag _
      | structVal fvs => rw [show encodeE tag (.nullable inner) (.structVal fvs) =
          encodeE tag inner (.structVal fvs) from by simp [encodeE]]
                         exact ih inner hi tag _

theorem encodeE_tag (S : TlvSchema) (tag : Option Nat) (v : TlvValue) :
    (encodeE tag S v).tag = tag :=
  encodeE_tag_aux (sizeOf S) S (Nat.le_refl _) tag v

theorem lookup_sizeOf {a : Type} [SizeOf a] {l : List (Nat × a)} {t : Nat}
    {x : a} (h : l.lookup t = some x) : sizeOf x < sizeOf l := by
  induction l with
  | nil => simp at h
  | cons p r ih =>
    obtain ⟨k, y⟩ := p
    rw [List.lookup_cons] at h
    by_cases hk : t == k
    · rw [hk] at h
      simp at h
      subst h
      simp
      omega
    · rw [Bool.not_eq_true] at hk
      rw [hk] at h
      have := ih h
      simp
      omega

theorem lookup_mem {a : Type} {l : List (Nat × a)} {t : Nat} {x : a}
    (h : l.lookup t = some x) : (t, x) ∈ l := by
  induction l with
  | nil => simp at h
  | cons p r ih =>
    obtain ⟨k, y⟩ := p
    rw [List.lookup_cons] at h
    by_cases hk : t == k
    · rw [hk] at h
      simp at h
      subst h
      have : t = k := by simpa using hk
      subst this
      exact List.mem_cons_self _ _
    · rw [Bool.not_eq_true] at hk
      rw [hk] at h
      exact List.mem_cons_of_mem _ (ih h)

theorem lookup_wfSchema {fields : List (Nat × TlvSchema)} {t : Nat}
    {fs : TlvSchema} (hwf : wfSchemaFields fields = true)
    (h : fields.lookup t = some fs) : wfSchema fs = true := by
  induction fields with
  | nil => simp at h
  | cons p r ih =>
    obtain ⟨k, y⟩ := p
    rw [wfSchemaFields] at hwf
    simp only [Bool.and_eq_true] at hwf
    rw [List.lookup_cons] at h
    by_cases hk : t == k
    · rw [hk] at h
      simp at h
      subst h
      exact hwf.1
    · rw [Bool.not_eq_true] at hk
      rw [hk] at h
      exact ih hwf.2 h

theorem minUWidth_fits (n : Nat) (h : n < 256 ^ 8) :
    n < 256 ^ (minUWidth n).bytes := by
  unfold minUWidth
  repeat' split
  all_goals simp [Width.bytes]
  all_goals omega

theorem minSWidth_fits (i : Int) (h1 : -(2 : Int) ^ 63 ≤ i)
    (h2 : i < (2 : Int) ^ 63) :
    -(2 : Int) ^ (8 * (minSWidth i).bytes - 1) ≤ i ∧
      i < (2 : Int) ^ (8 * (minSWidth i).bytes - 1) := by
  unfold minSWidth
  repeat' split
  all_goals simp [Width.bytes]
  all_goals norm_num at *
  all_goals omega

theorem conforms_optional (inner : TlvSchema) (v : TlvValue) :
    conforms (.optional inner) v = conforms inner v := by
  cases v <;> simp [conforms]

theorem conforms_nullable_ne_null (inner : TlvSchema) (v : TlvValue)
    (h : v ≠ .nullVal) :
    conforms (.nullable inner) v = conforms inner v := by
  cases v <;> simp [conforms]
  exact absurd rfl h

theorem encodeE_optional (tag : Option Nat) (inner : TlvSchema)
    (v : TlvValue) : encodeE tag (.optional inner) v = encodeE tag inner v := by
  cases v <;> simp [encodeE]

theorem encodeE_nullable_ne_null (tag : Option Nat) (inner : TlvSchema)
    (v : TlvValue) (h : v ≠ .nullVal) :
    encodeE tag (.nullable inner) v = encodeE tag inner v := by
  cases v <;> simp [encodeE]
  exact absurd rfl h

theorem decodeE_optional (inner : TlvSchema) (e : TlvElement) :
    decodeE (.optional inner) e = decodeE inner e := by
  cases e <;> simp [decodeE]

theorem decodeE_nullable_ne (inner : TlvSchema) (e : TlvElement)
    (h : ∀ t2, e ≠ .nullE t2) :
    decodeE (.nullable inner) e = decodeE inner e := by
  cases e <;> simp [decodeE]
  exact absurd rfl (h _)

/-- The elements produced by the Schema Codec encoder on conforming
values over well-formed schemas are well-formed for the Tag Stream
layer, stated simultaneously for values, list items and struct fields
and proved by strong induction on combined size. -/
theorem wfE_encode_strong : ∀ N : Nat,
    (∀ (S : TlvSchema) (v : TlvValue) (tag : Option Nat),
      sizeOf S + sizeOf v ≤ N → wfTag tag = true → wfSchema S = true →
        conforms S v = true → wfE (encodeE tag S v) = true) ∧
    (∀ (el : TlvSchema) (vs : List TlvValue),
      sizeOf el + sizeOf vs ≤ N → wfSchema el = true →
        conformsItems el vs = true → wfEs (encodeItems el vs) = true) ∧
    (∀ (fields : List (Nat × TlvSchema)) (fvs : List (Nat × TlvValue)),
      sizeOf fields + sizeOf fvs ≤ N → wfSchema (.struct fields) = true →
        conformsFields fields fvs = true →
          wfEs (encodeFieldsE fields fvs) = true) := by
  intro N
  induction N with
  | zero =>
    refine ⟨fun S v tag hs => ?_, fun el vs hs => ?_, fun fields fvs hs => ?_⟩
    all_goals exfalso
    · cases S <;> simp at hs
    · cases el <;> simp at hs
    · cases fvs <;> simp at hs
  | succ N ih =>
    obtain ⟨ihE, ihI, ihF⟩ := ih
    refine ⟨fun S v tag hs htag hws hconf => ?_,
      fun el vs hs hws hconf => ?_, fun fields fvs hs hws hconf => ?_⟩
    · cases S with
      | boolean =>
        cases v <;> simp [conforms] at hconf
        simp [encodeE, wfE, htag]
      | integer w signed =>
        cases signed <;> cases v <;> simp [conforms] at hconf
        · obtain ⟨h1, h2⟩ := hconf
          simp [encodeE, wfE, htag]
          refine minUWidth_fits _ ?_
          cases w <;> simp [Width.bytes] at h2 <;> omega
        · obtain ⟨h1, h2⟩ := hconf
          simp [encodeE, wfE, htag]
          refine minSWidth_fits _ ?_ ?_ <;> cases w <;>
            simp [Width.bytes] at h1 h2 <;> omega
      | float =>
        cases v <;> simp [conforms] at hconf
        simp [encodeE, wfE, htag]
        omega
      | utf8String =>
        cases v <;> simp [conforms] at hconf
        simp [encodeE, wfE, htag]
        omega
      | byteString =>
        cases v <;> simp [conforms] at hconf
        simp [encodeE, wfE, htag]
        obtain ⟨h1, _⟩ := hconf
        omega
      | list el =>
        cases v <;> simp [conforms] at hconf
        simp only [encodeE, wfE, Bool.and_eq_true]
        refine ⟨htag, ihI el _ ?_ (by simpa [wfSchema] using hws) hconf⟩
        simp at hs
        omega
      | struct fields =>
        cases v <;> simp [conforms] at hconf
        simp only [encodeE, wfE, Bool.and_eq_true]
        obtain ⟨⟨hkd, hcf⟩, hreq⟩ := hconf
        refine ⟨htag, ihF fields _ ?_ hws hcf⟩
        simp at hs
        omega
      | optional inner =>
        rw [encodeE_optional]
        rw [conforms_optional] at hconf
        refine ihE inner v tag ?_ htag (by simpa [wfSchema] using hws) hconf
        simp at hs
        omega
      | nullable inner =>
        by_cases hnull : v = .nullVal
        · subst hnull
          simp [encodeE, wfE, htag]
        · rw [encodeE_nullable_ne_null _ _ _ hnull]
          rw [conforms_nullable_ne_null _ _ hnull] at hconf
          refine ihE inner v tag ?_ htag (by simpa [wfSchema] using hws) hconf
          simp at hs
          omega
    · cases vs with
      | nil => simp [encodeItems, wfEs]
      | cons v vs =>
        rw [conformsItems] at hconf
        simp only [Bool.and_eq_true] at hconf
        rw [encodeItems, wfEs]
        simp only [Bool.and_eq_true]
        constructor
        · refine ihE el v none ?_ rfl hws hconf.1
          simp at hs
          omega
        · refine ihI el vs ?_ hws hconf.2
          simp at hs
          omega
    · cases fvs with
      | nil => simp [encodeFieldsE, wfEs]
      | cons p fvs =>
        obtain ⟨t, v⟩ := p
        rw [conformsFields] at hconf
        simp only [Bool.and_eq_true] at hconf
        obtain ⟨hhead, htail⟩ := hconf
        cases hl : fields.lookup t with
        | none => rw [hl] at hhead; simp at hhead
        | some fs =>
          rw [hl] at hhead
          simp only at hhead
          rw [encodeFieldsE, hl, Option.getD_some, wfEs]
          simp only [Bool.and_eq_true]
          have hmem := lookup_mem hl
          have hws2 := hws
          rw [wfSchema] at hws2
          simp only [Bool.and_eq_true] at hws2
          obtain ⟨⟨hkd, hall⟩, hwff⟩ := hws2
          have htlt : t < 256 := by
            have := List.all_eq_true.mp hall _ hmem
            simp at this
            exact this.2
          constructor
          · refine ihE fs v (some t) ?_ (by simp [wfTag, htlt])
              (lookup_wfSchema hwff hl) hhead
            have h1 := lookup_sizeOf hl
            simp at hs
            omega
          · refine ihF fields fvs ?_ hws htail
            simp at hs
            omega

/-- Round trip of the Schema Codec layer: decoding the element encoded
from a conforming value returns exactly that value, stated
simultaneously for values, list items and struct fields (which also
come back in their original order) and proved by strong induction on
combined size.  The second conjunct of the value part records that a
non-null conforming value never encodes to the null element. -/
theorem decode_encode_strong : ∀ N : Nat,
    (∀ (S : TlvSchema) (v : TlvValue) (tag : Option Nat),
      sizeOf S + sizeOf v ≤ N → conforms S v = true →
        decodeE S (encodeE tag S v) = some v ∧
          (v ≠ .nullVal → ∀ t2, encodeE tag S v ≠ .nullE t2)) ∧
    (∀ (el : TlvSchema) (vs : List TlvValue),
      sizeOf el + sizeOf vs ≤ N → conformsItems el vs = true →
        decodeItemsE el (encodeItems el vs) = some vs) ∧
    (∀ (fields : List (Nat × TlvSchema)) (fvs : List (Nat × TlvValue)),
      sizeOf fields + sizeOf fvs ≤ N → conformsFields fields fvs = true →
        decodeFieldsE fields (encodeFieldsE fields fvs) = some fvs) := by
  intro N
  induction N with
  | zero =>
    refine ⟨fun S v tag hs => ?_, fun el vs hs => ?_, fun fields fvs hs => ?_⟩
    all_goals exfalso
    · cases S <;> simp at hs
    · cases el <;> simp at hs
    · cases fvs <;> simp at hs
  | succ N ih =>
    obtain ⟨ihE, ihI, ihF⟩ := ih
    refine ⟨fun S v tag hs hconf => ?_,
      fun el vs hs hconf => ?_, fun fields fvs hs hconf => ?_⟩
    · cases S with
      | boolean =>
        cases v <;> simp [conforms] at hconf
        exact ⟨by simp [encodeE, decodeE], by simp [encodeE]⟩
      | integer w signed =>
        cases signed <;> cases v <;> simp [conforms] at hconf
        · obtain ⟨h1, h2⟩ := hconf
          constructor
          · simp only [encodeE, decodeE]
            rw [if_pos (by cases w <;> simp [Width.bytes] at h2 ⊢ <;> omega)]
            simp [Int.toNat_of_nonneg h1]
          · intro _ t2
            simp [encodeE]
        · obtain ⟨h1, h2⟩ := hconf
          constructor
          · simp only [encodeE, decodeE]
            rw [if_pos ⟨h1, h2⟩]
          · intro _ t2
            simp [encodeE]
      | float =>
        cases v <;> simp [conforms] at hconf
        exact ⟨by simp [encodeE, decodeE], by simp [encodeE]⟩
      | utf8String =>
        cases v with
        | str st =>
          obtain ⟨d⟩ := st
          exact ⟨by simp [encodeE, decodeE], by simp [encodeE]⟩
        | boolean b => simp [conforms] at hconf
        | intVal i => simp [conforms] at hconf
        | floatVal bits => simp [conforms] at hconf
        | bytes bs => simp [conforms] at hconf
        | listVal vs => simp [conforms] at hconf
        | structVal fvs => simp [conforms] at hconf
        | nullVal => simp [conforms] at hconf
      | byteString =>
        cases v <;> simp [conforms] at hconf
        exact ⟨by simp [encodeE, decodeE], by simp [encodeE]⟩
      | list el =>
        cases v <;> simp [conforms] at hconf
        constructor
        · simp only [encodeE, decodeE]
          rw [ihI el _ (by simp at hs; omega) hconf]
          rfl
        · intro _ t2
          simp [encodeE]
      | struct fields =>
        cases v <;> simp [conforms] at hconf
        obtain ⟨⟨hkd, hcf⟩, hreq⟩ := hconf
        constructor
        · simp only [encodeE, decodeE]
          rw [ihF fields _ (by simp at hs; omega) hcf]
          dsimp only
          rw [if_pos hreq]
        · intro _ t2
          simp [encodeE]
      | optional inner =>
        rw [conforms_optional] at hconf
        have hb : sizeOf inner + sizeOf v ≤ N := by simp at hs; omega
        have hIH := ihE inner v tag hb hconf
        rw [encodeE_optional, decodeE_optional]
        exact hIH
      | nullable inner =>
        by_cases hnull : v = TlvValue.nullVal
        · subst hnull
          constructor
          · simp [encodeE, decodeE]
          · intro h
            exact absurd rfl h
        · rw [conforms_nullable_ne_null _ _ hnull] at hconf
          have hb : sizeOf inner + sizeOf v ≤ N := by simp at hs; omega
          have hIH := ihE inner v tag hb hconf
          rw [encodeE_nullable_ne_null _ _ _ hnull]
          constructor
          · rw [decodeE_nullable_ne _ _ (hIH.2 hnull)]
            exact hIH.1
          · intro _ t2
            exact hIH.2 hnull t2
    · cases vs with
      | nil => simp [encodeItems, decodeItemsE]
      | cons v vs =>
        rw [conformsItems] at hconf
        simp only [Bool.and_eq_true] at hconf
        rw [encodeItems, decodeItemsE, encodeE_tag]
        dsimp only
        rw [(ihE el v none (by simp at hs; omega) hconf.1).1]
        dsimp only
        rw [ihI el vs (by simp at hs; omega) hconf.2]
        rfl
    · cases fvs with
      | nil => simp [encodeFieldsE, decodeFieldsE]
      | cons p fvs =>
        obtain ⟨t, v⟩ := p
        rw [conformsFields] at hconf
        simp only [Bool.and_eq_true] at hconf
        obtain ⟨hhead, htail⟩ := hconf
        cases hl : fields.lookup t with
        | none => rw [hl] at hhead; simp at hhead
        | some fs =>
          rw [hl] at hhead
          simp only at hhead
          rw [encodeFieldsE, hl, Option.getD_some, decodeFieldsE, encodeE_tag]
          dsimp only
          rw [hl]
          dsimp only
          have hb : sizeOf fs + sizeOf v ≤ N := by
            have := lookup_sizeOf hl
            simp at hs
            omega
          rw [(ihE fs v (some t) hb hhead).1]
          dsimp only
          rw [ihF fields fvs (by simp at hs; omega) htail]
          rfl

/-! ### The full codec pipeline and the round-trip law -/

/-- Decode failure taxonomy at the codec boundary: MalformedInput when
the Tag Stream layer cannot parse the byte layout, SchemaMismatch when
well-formed bytes have the wrong shape for the declared schema. -/
inductive DecodeError where
  | MalformedInput
  | SchemaMismatch
deriving DecidableEq, Repr

/-- Encode a value against a schema into wire bytes: the Schema Codec
produces the Tagged Element, the Tag Stream serializes it. -/
def TlvSchema.encode (S : TlvSchema) (v : TlvValue) : List Nat :=
  serE (encodeE none S v)

/-- Decode wire bytes against a schema: the Tag Stream parses one
element (with the recursion guard sized to the buffer, which is always
sufficient for well-formed input), then the Schema Codec interprets it;
parse failures and trailing bytes are MalformedInput, shape failures
are SchemaMismatch. -/
def TlvSchema.decode (S : TlvSchema) (bytes : List Nat) :
    Except DecodeError TlvValue :=
  match parseE (bytes.length + 1) bytes with
  | some (e, []) =>
    match decodeE S e with
    | some v => .ok v
    | none => .error .SchemaMismatch
  | some (_, _ :: _) => .error .MalformedInput
  | none => .error .MalformedInput

/-- C5: the round-trip law of the codec.  For every schema S of every
schema kind and every value v conforming to S (over a well-formed S),
decoding the encoding of v under S yields exactly v: numeric widening
through a larger wire width is permitted by the decoder and equality is
under the schema's declared type. -/
theorem TlvSchema.decode_encode (S : TlvSchema) (v : TlvValue)
    (hS : wfSchema S = true) (hv : conforms S v = true) :
    TlvSchema.decode S (TlvSchema.encode S v) = .ok v := by
  have hwfe : wfE (encodeE none S v) = true :=
    (wfE_encode_strong (sizeOf S + sizeOf v)).1 S v none (Nat.le_refl _)
      rfl hS hv
  have hp := (parse_ser_strong (sizeOf (encodeE none S v))).1
    (encodeE none S v) (Nat.le_refl _) hwfe []
    ((serE (encodeE none S v)).length + 1) (by omega)
  rw [List.append_nil] at hp
  unfold TlvSchema.decode TlvSchema.encode
  rw [hp]
  dsimp only
  rw [((decode_encode_strong (sizeOf S + sizeOf v)).1 S v none
    (Nat.le_refl _) hv).1]

/-- Witness for C5 at a concrete schema and value: a struct with a
one-byte unsigned integer field and an absent Optional boolean field
round-trips through the wire format. -/
theorem TlvSchema.decode_encode_witness :
    TlvSchema.decode
        (.struct [(1, .integer .w1 false), (2, .optional .boolean)])
        (TlvSchema.encode
          (.struct [(1, .integer .w1 false), (2, .optional .boolean)])
          (.structVal [(1, .intVal 7)])) =
      .ok (.structVal [(1, .intVal 7)]) :=
  TlvSchema.decode_encode
    (.struct [(1, .integer .w1 false), (2, .optional .boolean)])
    (.structVal [(1, .intVal 7)])
    (by simp [wfSchema, wfSchemaFields, keysDistinct])
    (by simp [conforms, conformsFields, requiredPresent, keysDistinct,
      isOpt, List.lookup, Width.bytes])

/-!
### CommandServer (dispatch unit)

The class declaration of CommandServer (constructor parameters, readonly
properties, and the signatures of handler and invoke) is given by the
provided API documentation; the body of invoke is not part of the
sources, so it is modelled from the spec, section 4.3: decode the raw
arguments against requestSchema and answer invalid-argument immediately
on failure, otherwise await the handler on the decoded request and the
per-call context, then either encode the result against responseSchema
under a success status or map the failure to its status code with an
empty body.  Per the contract paragraph of section 4.3 and the section 7
propagation policy, a successful handler response that does not conform
to responseSchema is an EncodingInvariantViolation: a programming
defect that must surface as a loud failure, fatal within the
invocation, never silently coerced into wire bytes.
-/

/-- Modelled from the spec: the session part of the Invocation Context
supplied by the out-of-scope transport layer (session identity and
fabric index). -/
structure Session where
  sessionIdentity : Nat
  fabricIndex : Nat
deriving DecidableEq, Repr

/-- Modelled from the spec: the message metadata part of the Invocation
Context (exchange id, source node id, timestamp). -/
structure Message where
  exchangeId : Nat
  sourceNodeId : Nat
  timestamp : Nat
deriving DecidableEq, Repr

/-- Modelled from the spec: the target addressing part of the
Invocation Context. -/
structure Endpoint where
  id : Nat
deriving DecidableEq, Repr

/-- Modelled from the spec: the wire-visible protocol status codes of
section 6. -/
inductive StatusCode where
  | Success
  | Failure
  | InvalidAction
  | UnsupportedCommand
  | InvalidCommand
  | UnsupportedAttribute
  | UnsupportedWrite
  | ConstraintError
  | Timeout
deriving DecidableEq, Repr

/-- A TLV byte stream, the raw-argument and encoded-response type of
the invoke signature. -/
abbrev TlvStream : Type := List Nat

/-- A handler result that is either immediately available or deferred
(the ResponseT-or-Promise-of-ResponseT return type of the handler);
the dispatch engine awaits it. -/
inductive HandlerOut (a : Type) where
  | sync (x : a)
  | deferred (x : a)

/-- Awaiting a handler result yields its value whether or not it was
deferred. -/
def HandlerOut.await {a : Type} : HandlerOut a → a
  | .sync x => x
  | .deferred x => x

/-- Modelled from the spec: a handler failure either carries a specific
domain status code or is an unrecognized failure. -/
inductive HandlerError where
  | statusResponse (code : StatusCode)
  | unrecognized
deriving DecidableEq, Repr

/-- Modelled from the spec: failure-to-status mapping; a failure
carrying a specific domain status code maps to that code, any
unrecognized failure maps to the generic Failure status. -/
def HandlerError.status : HandlerError → StatusCode
  | .statusResponse c => c
  | .unrecognized => .Failure

/-- A deferred (promise) computation the caller awaits; invoke returns
one. -/
structure Deferred (a : Type) where
  await : a

/-- The Command Endpoint: constructed from exactly (invokeId,
responseId, name, requestSchema, responseSchema, handler), all stored as
readonly properties, per the class declaration.  The handler takes the
decoded request plus the per-call context (session, message, endpoint)
and returns a possibly deferred, possibly failing response; the
section 4.3 contract obliges a successful response to conform to
responseSchema, and invoke surfaces any violation loudly rather than
encoding it. -/
structure CommandServer where
  invokeId : Nat
  responseId : Nat
  name : String
  requestSchema : TlvSchema
  responseSchema : TlvSchema
  handler : TlvValue → Session → Message → Endpoint →
    HandlerOut (Except HandlerError TlvValue)

/-- The record returned for every invocation: a protocol status code,
the response id, and the encoded response bytes, per the declared
return type of invoke. -/
structure InvokeResult where
  code : StatusCode
  responseId : Nat
  response : TlvStream
deriving DecidableEq, Repr

/-- Modelled from the spec: the section 7 fatal-defect class for an
invocation.  EncodingInvariantViolation marks a handler return value
that does not satisfy its declared response schema; it is not
recoverable at the per-invocation level and is surfaced loudly
(equivalent to a fatal assertion, a rejected promise rather than a
status-coded response), since silently sending malformed bytes would
corrupt the wire contract. -/
inductive InvokeFatal where
  | EncodingInvariantViolation
deriving DecidableEq, Repr

/-- Modelled from the spec: the body of CommandServer.invoke, whose
implementation is not among the sources.  Step 1: decode the raw
arguments against requestSchema, returning immediately with the
invalid-argument status (InvalidCommand) and an empty body when the
decode fails, without calling the handler.  Step 2: call the handler on
the decoded request and the per-call context and await it.  Step 3: on
success, check the section 4.3 contract: a response conforming to
responseSchema is encoded against it and reported under the Success
status with the endpoint responseId, while a non-conforming response is
never encoded or silently coerced and instead surfaces as the loud,
fatal EncodingInvariantViolation (the error side of the deferred
result).  Step 4: on handler failure map the failure to its status code
and return an empty body. -/
def CommandServer.invoke (cs : CommandServer) (session : Session)
    (args : TlvStream) (message : Message) (endpoint : Endpoint) :
    Deferred (Except InvokeFatal InvokeResult) :=
  Deferred.mk
    (match TlvSchema.decode cs.requestSchema args with
     | .error _ =>
       .ok { code := .InvalidCommand, responseId := cs.responseId,
             response := [] }
     | .ok request =>
       match (cs.handler request session message endpoint).await with
       | .ok response =>
         if conforms cs.responseSchema response then
           .ok { code := .Success, responseId := cs.responseId,
                 response := TlvSchema.encode cs.responseSchema response }
         else .error .EncodingInvariantViolation
       | .error err =>
         .ok { code := err.status, responseId := cs.responseId,
               response := [] })

/-! ### Theorems for the CommandServer claims -/

/-- Counterexample for C1 as stated: a CommandServer whose handler
answers 300 against a one-byte unsigned response schema (a value
outside the declared semantic range) does not produce a status-coded
response at all; the invocation surfaces the loud, fatal
EncodingInvariantViolation instead, so not every invocation produces
exactly one status-coded response. -/
theorem CommandServer.invoke_one_response_cex :
    (CommandServer.invoke
        (CommandServer.mk 1 2 "cmd" .boolean (.integer .w1 false)
          (fun _ _ _ _ => .sync (.ok (.intVal 300))))
        ⟨0, 0⟩ [1] ⟨0, 0, 0⟩ ⟨0⟩).await =
      .error .EncodingInvariantViolation ∧
    ¬ ∃ (code : StatusCode) (response : TlvStream),
      (CommandServer.invoke
          (CommandServer.mk 1 2 "cmd" .boolean (.integer .w1 false)
            (fun _ _ _ _ => .sync (.ok (.intVal 300))))
          ⟨0, 0⟩ [1] ⟨0, 0, 0⟩ ⟨0⟩).await =
        .ok { code := code, responseId := 2, response := response } := by
  have h : (CommandServer.invoke
      (CommandServer.mk 1 2 "cmd" .boolean (.integer .w1 false)
        (fun _ _ _ _ => .sync (.ok (.intVal 300))))
      ⟨0, 0⟩ [1] ⟨0, 0, 0⟩ ⟨0⟩).await =
      .error .EncodingInvariantViolation := by
    unfold CommandServer.invoke
    dsimp only
    rw [show TlvSchema.decode .boolean [1] = .ok (.boolean true) from by
      unfold TlvSchema.decode
      rw [show parseE ([1].length + 1) [(1 : Nat)] =
        some (.boolE none true, []) from rfl]
      simp [decodeE]]
    dsimp only [HandlerOut.await]
    rw [if_neg (by simp [conforms, Width.bytes])]
  refine ⟨h, ?_⟩
  rintro ⟨code, response, hcontra⟩
  rw [h] at hcontra
  simp at hcontra

/-- C1 (amended): for every CommandServer and every invocation,
invoke(session, args, message, endpoint) returns a deferred result the
engine awaits.  Whenever the section 4.3 contract holds for this call -
any successful handler response conforms to responseSchema - that
result is exactly one record of three components: a protocol status
code, the endpoint responseId, and the encoded response stream; a
successful handler response violating the contract instead surfaces as
the loud, fatal EncodingInvariantViolation and no status-coded response
is produced. -/
theorem CommandServer.invoke_one_response (cs : CommandServer)
    (session : Session) (args : TlvStream) (message : Message)
    (endpoint : Endpoint) :
    ((∀ request response,
        TlvSchema.decode cs.requestSchema args = .ok request →
        (cs.handler request session message endpoint).await =
          .ok response →
        conforms cs.responseSchema response = true) →
      ∃ (code : StatusCode) (response : TlvStream),
        (cs.invoke session args message endpoint).await =
          .ok { code := code, responseId := cs.responseId,
                response := response }) ∧
    (∀ request response,
        TlvSchema.decode cs.requestSchema args = .ok request →
        (cs.handler request session message endpoint).await =
          .ok response →
        conforms cs.responseSchema response = false →
        (cs.invoke session args message endpoint).await =
          .error .EncodingInvariantViolation) := by
  constructor
  · intro hcontract
    unfold CommandServer.invoke
    cases hdec : TlvSchema.decode cs.requestSchema args with
    | error err => exact ⟨.InvalidCommand, [], rfl⟩
    | ok request =>
      dsimp only
      cases hh : (cs.handler request session message endpoint).await with
      | ok response =>
        dsimp only
        rw [if_pos (hcontract request response hdec hh)]
        exact ⟨.Success, _, rfl⟩
      | error err => exact ⟨err.status, [], rfl⟩
  · intro request response hdec hh hnc
    unfold CommandServer.invoke
    rw [hdec]
    dsimp only
    rw [hh]
    dsimp only
    rw [if_neg (by simp [hnc])]

/-- Witness for C1 (amended): a handler honouring the contract (a
boolean response against a boolean response schema) makes the
invocation produce exactly one status-coded record carrying the
endpoint responseId. -/
theorem CommandServer.invoke_one_response_witness :
    ∃ (code : StatusCode) (response : TlvStream),
      (CommandServer.invoke
          (CommandServer.mk 1 2 "cmd" .boolean .boolean
            (fun _ _ _ _ => .sync (.ok (.boolean true))))
          ⟨0, 0⟩ [1] ⟨0, 0, 0⟩ ⟨0⟩).await =
        .ok { code := code, responseId := 2, response := response } :=
  (CommandServer.invoke_one_response
    (CommandServer.mk 1 2 "cmd" .boolean .boolean
      (fun _ _ _ _ => .sync (.ok (.boolean true))))
    ⟨0, 0⟩ [1] ⟨0, 0, 0⟩ ⟨0⟩).1
    (fun request response _ hh => by
      have h2 : Except.ok (TlvValue.boolean true) = Except.ok response := hh
      injection h2 with h3
      subst h3
      simp [conforms])

/-- C2: the handler is a function of exactly the decoded request and
the per-call context, and its (possibly deferred) response is its only
effect visible to the dispatch engine: two CommandServers agreeing on
responseId and the two schemas, whose handlers agree at the one point
(request, session, message, endpoint) of the call, produce identical
invoke results however much their handlers differ elsewhere. -/
theorem CommandServer.invoke_handler_frame (cs1 cs2 : CommandServer)
    (session : Session) (args : TlvStream) (message : Message)
    (endpoint : Endpoint) (request : TlvValue)
    (hrid : cs1.responseId = cs2.responseId)
    (hreq : cs1.requestSchema = cs2.requestSchema)
    (hres : cs1.responseSchema = cs2.responseSchema)
    (hdec : TlvSchema.decode cs1.requestSchema args = .ok request)
    (hh : cs1.handler request session message endpoint =
      cs2.handler request session message endpoint) :
    cs1.invoke session args message endpoint =
      cs2.invoke session args message endpoint := by
  unfold CommandServer.invoke
  rw [← hreq, hdec, ← hrid, ← hres]
  dsimp only
  rw [← hh]

/-- Witness for C2: two endpoints whose handlers are different
functions but agree on the one invocation at hand produce the same
result. -/
theorem CommandServer.invoke_handler_frame_witness :
    CommandServer.invoke
        (CommandServer.mk 1 2 "cmd" .boolean .boolean
          (fun _ _ _ _ => .sync (.ok (.boolean true))))
        ⟨0, 0⟩ [1] ⟨0, 0, 0⟩ ⟨0⟩ =
      CommandServer.invoke
        (CommandServer.mk 1 2 "cmd" .boolean .boolean
          (fun _ s _ _ =>
            if s.fabricIndex = 99 then .sync (.error .unrecognized)
            else .sync (.ok (.boolean true))))
        ⟨0, 0⟩ [1] ⟨0, 0, 0⟩ ⟨0⟩ :=
  CommandServer.invoke_handler_frame
    (CommandServer.mk 1 2 "cmd" .boolean .boolean
      (fun _ _ _ _ => .sync (.ok (.boolean true))))
    (CommandServer.mk 1 2 "cmd" .boolean .boolean
      (fun _ s _ _ =>
        if s.fabricIndex = 99 then .sync (.error .unrecognized)
        else .sync (.ok (.boolean true))))
    ⟨0, 0⟩ [1] ⟨0, 0, 0⟩ ⟨0⟩ (.boolean true) rfl rfl rfl
    (by unfold TlvSchema.decode
        rw [show parseE ([1].length + 1) [(1 : Nat)] =
          some (.boolE none true, []) from rfl]
        simp [decodeE])
    (by simp)

/-- C3: a CommandServer is constructed from exactly the six components
(invokeId, responseId, name, requestSchema, responseSchema, handler),
and each one is stored unchanged as the correspondingly named readonly
property of the constructed endpoint; the structure offers no mutation,
so they never change after construction. -/
theorem CommandServer.mk_fields (i r : Nat) (n : String)
    (rq rs : TlvSchema)
    (h : TlvValue → Session → Message → Endpoint →
      HandlerOut (Except HandlerError TlvValue)) :
    (CommandServer.mk i r n rq rs h).invokeId = i ∧
    (CommandServer.mk i r n rq rs h).responseId = r ∧
    (CommandServer.mk i r n rq rs h).name = n ∧
    (CommandServer.mk i r n rq rs h).requestSchema = rq ∧
    (CommandServer.mk i r n rq rs h).responseSchema = rs ∧
    (CommandServer.mk i r n rq rs h).handler = h :=
  ⟨rfl, rfl, rfl, rfl, rfl, rfl⟩

/-- C4: when the raw arguments fail to decode against requestSchema
(with MalformedInput or SchemaMismatch), invoke returns immediately
with the invalid-argument status code and an empty body; the handler is
never called, witnessed by the result being identical for every
possible handler; and the failure is converted to a status code rather
than propagated, witnessed by invoke returning an ok status-coded
record (never the fatal error side of the deferred result). -/
theorem CommandServer.invoke_decode_error (cs : CommandServer)
    (session : Session) (args : TlvStream) (message : Message)
    (endpoint : Endpoint) (err : DecodeError)
    (hdec : TlvSchema.decode cs.requestSchema args = .error err) :
    (cs.invoke session args message endpoint).await =
      .ok { code := .InvalidCommand, responseId := cs.responseId,
            response := [] } ∧
    ∀ handler2, (CommandServer.mk cs.invokeId cs.responseId cs.name
        cs.requestSchema cs.responseSchema handler2).invoke
        session args message endpoint =
      cs.invoke session args message endpoint := by
  constructor
  · unfold CommandServer.invoke
    rw [hdec]
  · intro handler2
    unfold CommandServer.invoke
    dsimp only
    rw [hdec]

/-- Witness for C4: an empty byte stream fails to parse, and the
invocation answers InvalidCommand with an empty body without consulting
the handler. -/
theorem CommandServer.invoke_decode_error_witness :
    (CommandServer.invoke
        (CommandServer.mk 1 2 "cmd" .boolean .boolean
          (fun _ _ _ _ => .sync (.ok (.boolean true))))
        ⟨0, 0⟩ [] ⟨0, 0, 0⟩ ⟨0⟩).await =
      .ok { code := .InvalidCommand, responseId := 2, response := [] } :=
  (CommandServer.invoke_decode_error
    (CommandServer.mk 1 2 "cmd" .boolean .boolean
      (fun _ _ _ _ => .sync (.ok (.boolean true))))
    ⟨0, 0⟩ [] ⟨0, 0, 0⟩ ⟨0⟩ .MalformedInput
    (by unfold TlvSchema.decode
        rw [show parseE (List.length ([] : List Nat) + 1) ([] : List Nat) =
          none from rfl])).1

/-- C6: when the arguments decode successfully but the handler fails
carrying a specific domain status code, invoke returns exactly that
status code with an empty response body; a handler failure carrying no
recognized specific code maps to the generic Failure status, also with
an empty body. -/
theorem CommandServer.invoke_handler_failure (cs : CommandServer)
    (session : Session) (args : TlvStream) (message : Message)
    (endpoint : Endpoint) (request : TlvValue)
    (hdec : TlvSchema.decode cs.requestSchema args = .ok request) :
    (∀ c : StatusCode,
      (cs.handler request session message endpoint).await =
        .error (.statusResponse c) →
      (cs.invoke session args message endpoint).await =
        .ok { code := c, responseId := cs.responseId, response := [] }) ∧
    ((cs.handler request session message endpoint).await =
        .error .unrecognized →
      (cs.invoke session args message endpoint).await =
        .ok { code := .Failure, responseId := cs.responseId,
              response := [] }) := by
  constructor
  · intro c hc
    unfold CommandServer.invoke
    rw [hdec]
    dsimp only
    rw [hc]
    rfl
  · intro hc
    unfold CommandServer.invoke
    rw [hdec]
    dsimp only
    rw [hc]
    rfl

/-- Witness for C6: a handler failing with the ConstraintError domain
status makes invoke answer exactly ConstraintError with an empty
body. -/
theorem CommandServer.invoke_handler_failure_witness :
    (CommandServer.invoke
        (CommandServer.mk 1 2 "cmd" .boolean .boolean
          (fun _ _ _ _ => .deferred (.error (.statusResponse .ConstraintError))))
        ⟨0, 0⟩ [1] ⟨0, 0, 0⟩ ⟨0⟩).await =
      .ok { code := .ConstraintError, responseId := 2, response := [] } :=
  (CommandServer.invoke_handler_failure
    (CommandServer.mk 1 2 "cmd" .boolean .boolean
      (fun _ _ _ _ => .deferred (.error (.statusResponse .ConstraintError))))
    ⟨0, 0⟩ [1] ⟨0, 0, 0⟩ ⟨0⟩ (.boolean true)
    (by unfold TlvSchema.decode
        rw [show parseE ([1].length + 1) [(1 : Nat)] =
          some (.boolE none true, []) from rfl]
        simp [decodeE])).1 .ConstraintError rfl

end MatterSpec
